import Mathlib

/-!
# Verification of the `@agent-memory/core` specification

A shallow embedding of the pure logic of the repository:
markdown memory serialization (`src/storage`), score normalization and
chunk counting, summarization-response parsing (`src/providers/summarizer`),
configuration validation (`config.ts` / `types.ts`), and a model of the
storage/search tombstone protocol.

Strings are embedded as `List Char`; JavaScript string methods
(`split`, `trim`, `indexOf`, the specific regular expressions used by the
source) are translated into executable Lean functions on `List Char`.
-/

/-- Strings of the embedded program, as lists of characters. -/
abbrev Str : Type := List Char

/-- The whitespace class used by JavaScript `trim` and `\s`
(ASCII part: space, tab, newline, carriage return, vertical tab, form feed). -/
def jsWhite (c : Char) : Bool :=
  c = ' ' || c = '\t' || c = '\n' || c = '\r' || c = '\x0b' || c = '\x0c'

/-- JavaScript `String.prototype.trim`: drop leading and trailing whitespace. -/
def jsTrim (s : Str) : Str :=
  ((s.dropWhile jsWhite).reverse.dropWhile jsWhite).reverse

/-- Whether `sub` occurs as a contiguous substring of `s`
(the notion behind JavaScript `indexOf`/`split` finding a separator). -/
def containsSub (sub : Str) : Str → Bool
  | [] => sub.isEmpty
  | c :: t => sub.isPrefixOf (c :: t) || containsSub sub t

/-- Split `s` at the leftmost occurrence of `sep`, returning the pieces
before and after it, or `none` when `sep` does not occur.  This is the
engine behind JavaScript `String.prototype.split` for a plain separator. -/
def firstSplit (sep : Str) : Str → Option (Str × Str)
  | [] => none
  | c :: cs =>
    if sep.isPrefixOf (c :: cs) then
      some ([], (c :: cs).drop sep.length)
    else
      match firstSplit sep cs with
      | some (b, r) => some (c :: b, r)
      | none => none

/-- The first two segments of `s.split(sep)` (JavaScript semantics):
segment 0 always exists; segment 1 exists when the separator occurs and
extends to the next occurrence of the separator (or the end). -/
def splitFirstTwo (sep : Str) (s : Str) : Str × Option Str :=
  match firstSplit sep s with
  | none => (s, none)
  | some (b, r) =>
    match firstSplit sep r with
    | none => (b, some r)
    | some (b2, _) => (b, some b2)

/-- JavaScript `s.split(c)` for a single-character separator. -/
def splitChar (sepc : Char) (s : Str) : List Str :=
  s.foldr
    (fun c acc =>
      if c = sepc then [] :: acc
      else
        match acc with
        | [] => [[c]]
        | g :: gs => (c :: g) :: gs)
    [[]]

/-- JavaScript `s.split(', ')` (the separator used for tag lists). -/
def splitCommaSpace : Str → List Str
  | [] => [[]]
  | ',' :: ' ' :: rest => [] :: splitCommaSpace rest
  | c :: rest =>
    match splitCommaSpace rest with
    | [] => [[c]]
    | g :: gs => (c :: g) :: gs

/-! ## Data model: `WrittenMemory` (`src/types.ts`, `WrittenMemorySchema`) -/

/-- A written memory record (`WrittenMemory` in `src/types.ts`). -/
structure WrittenMemory where
  id : Str
  title : Str
  content : Str
  tags : List Str
  createdAt : Str
  updatedAt : Str
  deleted : Bool
deriving DecidableEq, Repr

/-! ## Markdown memory serialization (`src/storage/memories.ts`) -/

/-- The footer separator `"\n---\n"` used by the memory markdown format. -/
def footerSep : Str := '\n' :: '-' :: '-' :: '-' :: '\n' :: []

/-- `formatMemoryMarkdown` from the source: the lines array joined by `'\n'`. -/
def formatMemoryMarkdown (memory : WrittenMemory) : Str :=
  List.intercalate ['\n']
    [ "# ".data ++ memory.title
    , []
    , memory.content
    , []
    , "---".data
    , "tags: ".data ++ List.intercalate ", ".data memory.tags
    , "created: ".data ++ memory.createdAt
    , "updated: ".data ++ memory.updatedAt
    , "deleted: ".data ++ (if memory.deleted then "true".data else "false".data) ]

/-- The title regex `/^# (.+)\n/` applied to `body`: requires `body` to start
with `"# "`, followed by a nonempty newline-free line and then a newline;
captures that line. -/
def matchTitle (body : Str) : Option Str :=
  match body with
  | '#' :: ' ' :: rest =>
    let line := rest.takeWhile (fun c => c ≠ '\n')
    if line ≠ [] ∧ line.length < rest.length then some line else none
  | _ => none

/-- `body.replace(/^# .+\n\n?/, '')`: remove the heading line (and at most one
following blank line) when the anchored pattern matches, else leave `body`. -/
def stripTitle (body : Str) : Str :=
  match matchTitle body with
  | none => body
  | some line =>
    let r := body.drop (2 + line.length + 1)
    match r with
    | '\n' :: r2 => r2
    | _ => r

/-- One line of frontmatter: `key: value` with the first colon at a positive
index; key and value are trimmed (`parseFrontmatter` loop body). -/
def lineKV (line : Str) : Option (Str × Str) :=
  let pre := line.takeWhile (fun c => c ≠ ':')
  if pre ≠ [] ∧ pre.length < line.length then
    some (jsTrim pre, jsTrim (line.drop (pre.length + 1)))
  else none

/-- `parseFrontmatter` from the source: split into lines, keep `key: value`
lines; later lines overwrite earlier ones (JavaScript object assignment). -/
def parseFrontmatter (frontmatter : Str) : List (Str × Str) :=
  (splitChar '\n' frontmatter).filterMap lineKV

/-- Look a key up in parsed frontmatter; the last binding wins, matching
JavaScript object-field overwriting. -/
def metaLookup (frontmatter : Str) (key : Str) : Option Str :=
  (parseFrontmatter frontmatter).reverse.lookup key

/-- `parseMemoryMarkdown` from the source.  `none` models the thrown
`'Invalid memory format: missing frontmatter'` error; `now` stands for
`new Date().toISOString()`, used when a timestamp key is missing. -/
def parseMemoryMarkdown (content : Str) (id : Str) (now : Str) : Option WrittenMemory :=
  match splitFirstTwo footerSep content with
  | (_, none) => none
  | (body, some frontmatter) =>
    if body = [] ∨ frontmatter = [] then none
    else
      some
        { id := id
        , title := (matchTitle body).getD "Untitled".data
        , content := jsTrim (stripTitle body)
        , tags :=
            match metaLookup frontmatter "tags".data with
            | none => []
            | some v => (splitCommaSpace v).filter (fun t => t ≠ [])
        , createdAt := (metaLookup frontmatter "created".data).getD now
        , updatedAt := (metaLookup frontmatter "updated".data).getD now
        , deleted := metaLookup frontmatter "deleted".data == some "true".data }

/-! ## Score normalization (`src/search/index.ts`) and chunk count
(`src/storage/sessions.ts`)

JavaScript numbers are idealized as exact rationals. -/

/-- `normalizeScore` from `src/search/index.ts`: `1 / (1 + distance)`. -/
def normalizeScore (distance : ℚ) : ℚ :=
  1 / (1 + distance)

/-- `getChunkCount` from `src/storage/sessions.ts`:
`Math.ceil(messageCount / chunkSize)`. -/
def getChunkCount (messageCount chunkSize : ℕ) : ℤ :=
  ⌈(messageCount : ℚ) / (chunkSize : ℚ)⌉

/-! ## Summarization response parsing (`src/providers/summarizer/index.ts`)

The source locates sections with the regexes
`/SUMMARY:\s*\n([\s\S]*?)(?=\n\s*KEY FACTS:|$)/i` and
`/KEY FACTS:\s*\n([\s\S]*?)$/i` and post-processes the captures.  The
embedding implements exactly the behaviour of these two patterns. -/

/-- ASCII lowercasing, for the `i` (case-insensitive) regex flag. -/
def lowerAscii (c : Char) : Char :=
  if 'A' ≤ c ∧ c ≤ 'Z' then Char.ofNat (c.toNat + 32) else c

/-- Case-insensitive prefix test (`label` is given in lowercase). -/
def ciIsPrefixOf : Str → Str → Bool
  | [], _ => true
  | _ :: _, [] => false
  | a :: as, b :: bs => lowerAscii b = a && ciIsPrefixOf as bs

/-- After a label, the regex fragment `\s*\n` consumes (by greedy matching
with backtracking) the whitespace run up to and including its last newline.
Returns the remainder, or `none` when the whitespace run after the label
contains no newline (so the pattern cannot match here). -/
def afterWsNewline (s : Str) : Option Str :=
  let w := s.takeWhile jsWhite
  let tailWs := (w.reverse.takeWhile (fun c => c ≠ '\n')).reverse
  if tailWs.length = w.length then none
  else some (tailWs ++ s.drop w.length)

/-- Find the leftmost position where `label` matches case-insensitively and
is followed by `\s*\n`; return the text after the consumed newline. -/
def findLabel (label : Str) : Str → Option Str
  | [] => none
  | c :: cs =>
    if ciIsPrefixOf label (c :: cs) then
      match afterWsNewline ((c :: cs).drop label.length) with
      | some r => some r
      | none => findLabel label cs
    else findLabel label cs

/-- The lookahead `(?=\n\s*KEY FACTS:)`: the text starts with a newline,
then optional whitespace, then `KEY FACTS:` case-insensitively. -/
def kfAfterWs : Str → Bool
  | [] => false
  | c :: cs =>
    ciIsPrefixOf "key facts:".data (c :: cs) || (jsWhite c && kfAfterWs cs)

/-- Lazy capture `([\s\S]*?)` bounded by `(?=\n\s*KEY FACTS:|$)`: the
shortest prefix after which the lookahead (or the end of input) matches. -/
def takeToKeyFacts : Str → Str
  | [] => []
  | c :: cs =>
    if c = '\n' && kfAfterWs cs then []
    else c :: takeToKeyFacts cs

/-- `line.replace(/^-\s*/, '')`: strip one leading dash and the whitespace
after it, if present. -/
def stripDash (line : Str) : Str :=
  match line with
  | '-' :: rest => rest.dropWhile jsWhite
  | _ => line

/-- Result of summarization (`SummarizationResult` in `src/types.ts`). -/
structure SummarizationResult where
  summary : Str
  keyFacts : List Str
deriving DecidableEq, Repr

/-- `parseSummarizationResponse` from the source. -/
def parseSummarizationResponse (response : Str) : SummarizationResult :=
  let summary :=
    match findLabel "summary:".data response with
    | some r => jsTrim (takeToKeyFacts r)
    | none => jsTrim response
  let factsText := (findLabel "key facts:".data response).getD []
  let keyFacts :=
    ((splitChar '\n' factsText).map (fun line => jsTrim (stripDash line))).filter
      (fun l => l ≠ [])
  { summary := summary, keyFacts := keyFacts }

/-! ## Configuration validation (`src/types.ts` schemas, `src/config.ts`) -/

/-- Raw (pre-validation) embeddings configuration
(`EmbeddingsConfigSchema` input). -/
structure RawEmbeddingsConfig where
  provider : Str
  apiKey : Option Str
  model : Option Str
  baseUrl : Option Str
deriving DecidableEq, Repr

/-- Raw summarizer configuration (`SummarizerConfigSchema` input);
`apiKey` is `none` when the required field is absent. -/
structure RawSummarizerConfig where
  provider : Str
  apiKey : Option Str
  model : Option Str
deriving DecidableEq, Repr

/-- Raw search configuration (`SearchConfigSchema` input). -/
structure RawSearchConfig where
  hybridWeight : Option ℚ
  defaultLimit : Option ℚ
deriving DecidableEq, Repr

/-- Raw memory configuration (`MemoryConfigSchema` input). -/
structure RawMemoryConfig where
  storagePath : Option Str
  embeddings : RawEmbeddingsConfig
  summarizer : RawSummarizerConfig
  chunkSize : Option ℚ
  search : Option RawSearchConfig
deriving DecidableEq, Repr

/-- Validated search configuration after defaults. -/
structure SearchConfig where
  hybridWeight : ℚ
  defaultLimit : ℚ
deriving DecidableEq, Repr

/-- Validated memory configuration (`MemoryConfig`). -/
structure MemoryConfig where
  storagePath : Str
  embeddings : RawEmbeddingsConfig
  summarizer : RawSummarizerConfig
  chunkSize : ℚ
  search : SearchConfig
deriving DecidableEq, Repr

/-- JavaScript truthiness of an optional string (`undefined` and `''` are
falsy), used by the zod `.refine` checks. -/
def truthyOptStr : Option Str → Bool
  | none => false
  | some s => !s.isEmpty

/-- `EmbeddingsConfigSchema`: provider enum plus the two `.refine` checks. -/
def embeddingsConfigSchemaParse (e : RawEmbeddingsConfig) : Option RawEmbeddingsConfig :=
  if (e.provider = "openai".data ∨ e.provider = "ollama".data)
      ∧ (e.provider = "openai".data → truthyOptStr e.apiKey)
      ∧ (e.provider = "ollama".data → truthyOptStr e.baseUrl) then
    some e
  else none

/-- `SummarizerConfigSchema`: provider enum, `apiKey` a required string. -/
def summarizerConfigSchemaParse (s : RawSummarizerConfig) : Option RawSummarizerConfig :=
  if (s.provider = "openai".data ∨ s.provider = "anthropic".data) ∧ s.apiKey.isSome then
    some s
  else none

/-- `SearchConfigSchema`: defaults `hybridWeight = 0.7` (range `[0,1]`) and
`defaultLimit = 10` (positive); the whole object defaults to `{}`. -/
def searchConfigSchemaParse (s : Option RawSearchConfig) : Option SearchConfig :=
  let raw := s.getD { hybridWeight := none, defaultLimit := none }
  let hw := raw.hybridWeight.getD (7 / 10)
  let dl := raw.defaultLimit.getD 10
  if 0 ≤ hw ∧ hw ≤ 1 ∧ 0 < dl then some { hybridWeight := hw, defaultLimit := dl }
  else none

/-- `MemoryConfigSchema`: `storagePath` defaults to `~/.agent-memory`,
`chunkSize` is `z.number().positive().default(50)`. -/
def memoryConfigSchemaParse (raw : RawMemoryConfig) : Option MemoryConfig :=
  match embeddingsConfigSchemaParse raw.embeddings,
      summarizerConfigSchemaParse raw.summarizer,
      searchConfigSchemaParse raw.search with
  | some e, some s, some sc =>
    let cs := raw.chunkSize.getD 50
    if 0 < cs then
      some
        { storagePath := raw.storagePath.getD "~/.agent-memory".data
        , embeddings := e
        , summarizer := s
        , chunkSize := cs
        , search := sc }
    else none
  | _, _, _ => none

/-- `resolvePath` from `src/config.ts`: replace a leading `~` by the home
directory (the first-occurrence `replace` under the `startsWith` guard). -/
def resolvePath (homedir : Str) (path : Str) : Str :=
  match path with
  | '~' :: rest => homedir ++ rest
  | _ => path

/-- `validateConfig` from `src/config.ts`: schema-validate, then resolve
`~` in `storagePath`; `none` models the thrown `ValidationError`. -/
def validateConfig (homedir : Str) (raw : RawMemoryConfig) : Option MemoryConfig :=
  match memoryConfigSchemaParse raw with
  | none => none
  | some c => some { c with storagePath := resolvePath homedir c.storagePath }

/-! ## Tombstone model for delete/search/read

Modelled from the spec: `LanceDBSearchIndex.remove`/`search` and
`Memory.delete`/`write`/`update` are unimplemented stubs in the source
(every method body throws `'Not implemented'`), so the claimed tombstone
protocol is modelled from §4.2–4.4 of the specification: storage keeps
every record; `delete` sets the tombstone in storage and in the index;
`search` filters out tombstoned index entries at query time; `read` is a
direct storage lookup that ignores the tombstone; `write` inserts a fresh
id (creation and indexing are insert-or-fail-if-exists); `update` merges
title/content/tags only (never the tombstone) and mirrors the stored
metadata into the index. -/

/-- Modelled from the spec: a search-index row (searchable text plus the
denormalized deleted flag); embedding and remaining metadata are elided as
irrelevant to tombstone filtering. -/
structure IdxEntry where
  text : Str
  deleted : Bool
deriving DecidableEq, Repr

/-- Modelled from the spec: the combined state of the note store and the
search index, each an association list keyed by id. -/
structure MemState where
  store : List (Str × WrittenMemory)
  index : List (Str × IdxEntry)
deriving DecidableEq, Repr

/-- First-match association lookup. -/
def lookupA {α : Type} : List (Str × α) → Str → Option α
  | [], _ => none
  | (k, v) :: l, k2 => if k2 = k then some v else lookupA l k2

/-- Replace the value stored at key `k` (all occurrences), inserting
nothing when the key is absent. -/
def setAssoc {α : Type} (k : Str) (v : α) : List (Str × α) → List (Str × α)
  | [] => []
  | (k2, v2) :: l =>
    if k2 = k then (k2, v) :: setAssoc k v l else (k2, v2) :: setAssoc k v l

/-- Modelled from the spec: `write` — create a note under a fresh id and
index it; an id already present (even tombstoned) is not reused. -/
def opWrite (s : MemState) (id : Str) (m : WrittenMemory) : MemState :=
  match lookupA s.store id with
  | some _ => s
  | none =>
    { store := (id, { m with deleted := false }) :: s.store
    , index := (id, { text := m.content, deleted := false }) :: s.index }

/-- Modelled from the spec: `update` — merge the provided subset of
title/content/tags, refresh `updatedAt`, keep the tombstone, and mirror
the result into the index entry when one exists. -/
def opUpdate (s : MemState) (id : Str) (t c : Option Str) (g : Option (List Str))
    (now : Str) : MemState :=
  match lookupA s.store id with
  | none => s
  | some m =>
    let m2 : WrittenMemory :=
      { m with
        title := t.getD m.title
        content := c.getD m.content
        tags := g.getD m.tags
        updatedAt := now }
    { store := setAssoc id m2 s.store
    , index :=
        match lookupA s.index id with
        | none => s.index
        | some _ => setAssoc id { text := m2.content, deleted := m2.deleted } s.index }

/-- Modelled from the spec: `delete` — set the tombstone in storage and in
the index (the index `remove`), leaving the record in place. -/
def opDelete (s : MemState) (id : Str) (now : Str) : MemState :=
  match lookupA s.store id with
  | none => s
  | some m =>
    { store := setAssoc id { m with deleted := true, updatedAt := now } s.store
    , index :=
        match lookupA s.index id with
        | none => s.index
        | some e => setAssoc id { e with deleted := true } s.index }

/-- Modelled from the spec: `search` — scan the index, exclude tombstoned
entries at query time, apply an arbitrary relevance predicate `q`
(standing for any query), and return the matching ids. -/
def searchIds (s : MemState) (q : Str × IdxEntry → Bool) : List Str :=
  (s.index.filter (fun p => !p.2.deleted && q p)).map (fun p => p.1)

/-- Modelled from the spec: `read` — direct lookup in storage, ignoring
the tombstone. -/
def readMem (s : MemState) (id : Str) : Option WrittenMemory :=
  lookupA s.store id

/-- Modelled from the spec: the operations a caller can run against the
store/index pair after a delete. -/
inductive MemOp where
  | write (id : Str) (m : WrittenMemory)
  | update (id : Str) (t c : Option Str) (g : Option (List Str)) (now : Str)
  | del (id : Str) (now : Str)
deriving Repr

/-- Apply one operation. -/
def stepOp (s : MemState) : MemOp → MemState
  | MemOp.write id m => opWrite s id m
  | MemOp.update id t c g now => opUpdate s id t c g now
  | MemOp.del id now => opDelete s id now

/-- Apply a sequence of operations in order. -/
def runOps (s : MemState) : List MemOp → MemState
  | [] => s
  | op :: ops => runOps (stepOp s op) ops

/-! ## Concrete inputs and auxiliary definitions used by the claim theorems -/

def rawCfgHalf : RawMemoryConfig :=
  { storagePath := some "/tmp/mem".data
  , embeddings :=
      { provider := "openai".data, apiKey := some "sk-test".data
      , model := none, baseUrl := none }
  , summarizer :=
      { provider := "openai".data, apiKey := some "sk-test".data, model := none }
  , chunkSize := some (1 / 2)
  , search := none }

/-- A fully valid raw configuration with `chunkSize` omitted. -/
def rawCfgOk : RawMemoryConfig :=
  { storagePath := none
  , embeddings :=
      { provider := "ollama".data, apiKey := none
      , model := none, baseUrl := some "http://localhost:11434".data }
  , summarizer :=
      { provider := "anthropic".data, apiKey := some "sk-ant".data, model := none }
  , chunkSize := none
  , search := none }

/-- The validated configuration produced from `rawCfgOk`. -/
def cfgOk : MemoryConfig :=
  { storagePath := "/home/u/.agent-memory".data
  , embeddings := rawCfgOk.embeddings
  , summarizer := rawCfgOk.summarizer
  , chunkSize := 50
  , search := { hybridWeight := 7 / 10, defaultLimit := 10 } }

/-- The tombstone invariant: storage holds the record with `deleted = true`,
and every index row for this id is tombstoned. -/
def Tombstoned (s : MemState) (id : Str) : Prop :=
  (∃ m, lookupA s.store id = some m ∧ m.deleted = true) ∧
  ∀ p ∈ s.index, p.1 = id → p.2.deleted = true

/-- A concrete memory record for the C2 witness. -/
def memA : WrittenMemory :=
  { id := "m1".data, title := "T".data, content := "hello".data, tags := []
  , createdAt := "c1".data, updatedAt := "c1".data, deleted := false }

/-- The state after writing `memA` under id `m1` into the empty system. -/
def st0 : MemState := opWrite { store := [], index := [] } "m1".data memA

/-- A valid note whose markdown content contains a `---` horizontal rule. -/
def memSepContent : WrittenMemory :=
  { id := "memory-abc12345".data, title := "T".data, content := "x\n---\ny".data
  , tags := [], createdAt := "2024-01-01T00:00:00Z".data
  , updatedAt := "2024-01-01T00:00:00Z".data, deleted := false }

/-- The body segment of a formatted memory. -/
def fmtBody (m : WrittenMemory) : Str :=
  "# ".data ++ (m.title ++ '\n' :: '\n' :: (m.content ++ ['\n']))

/-- The footer segment of a formatted memory. -/
def fmtFooter (m : WrittenMemory) : Str :=
  "tags: ".data ++ (List.intercalate ", ".data m.tags ++
    ('\n' :: ("created: ".data ++ (m.createdAt ++
      ('\n' :: ("updated: ".data ++ (m.updatedAt ++
        ('\n' :: ("deleted: ".data ++
          (if m.deleted then "true".data else "false".data))))))))))

/-- A concrete multi-line note satisfying the round-trip side conditions. -/
def memRoundtrip : WrittenMemory :=
  { id := "memory-w1abcdef".data, title := "My note".data
  , content := "Line one.\nLine two.".data
  , tags := ["alpha".data, "beta".data]
  , createdAt := "2024-01-01T00:00:00Z".data
  , updatedAt := "2024-02-02T12:30:00Z".data, deleted := true }


/-! ## Claim theorems and supporting lemmas -/


/-- C3: for all `m ≥ 0` and `c > 0`, `getChunkCount m c` is the
mathematical ceiling of `m / c` (equivalently `(m + c - 1) / c`). -/
theorem getChunkCount_eq_ceil (m c : ℕ) (h : 0 < c) :
    getChunkCount m c = (⌈(m : ℚ) / (c : ℚ)⌉₊ : ℤ) ∧
    getChunkCount m c = (((m + c - 1) / c : ℕ) : ℤ) := by
  have hc : (0 : ℚ) < (c : ℚ) := by exact_mod_cast h
  have hnn : (0 : ℚ) ≤ (m : ℚ) / (c : ℚ) := by positivity
  have h1 : getChunkCount m c = (⌈(m : ℚ) / (c : ℚ)⌉₊ : ℤ) :=
    (Int.natCast_ceil_eq_ceil hnn).symm
  refine ⟨h1, ?_⟩
  rw [h1]
  have key : ⌈(m : ℚ) / (c : ℚ)⌉₊ = (m + c - 1) / c := by
    rcases Nat.eq_zero_or_pos m with rfl | hm
    · have h0 : (c - 1) / c = 0 := Nat.div_eq_of_lt (by omega)
      simp [h0]
    · have hdm := Nat.div_add_mod (m + c - 1) c
      have hmod := Nat.mod_lt (m + c - 1) h
      set k := (m + c - 1) / c with hkdef
      have hub : m ≤ c * k := by omega
      have hk1 : 1 ≤ k := by
        rcases Nat.eq_zero_or_pos k with h0 | h0
        · rw [h0, Nat.mul_zero] at hub; omega
        · exact h0
      rw [Nat.ceil_eq_iff (by omega)]
      constructor
      · rw [Nat.cast_sub hk1, lt_div_iff₀ hc]
        have hnat : c * k ≤ m + c - 1 := by omega
        have q0 : ((c * k : ℕ) : ℚ) ≤ ((m + c - 1 : ℕ) : ℚ) := by exact_mod_cast hnat
        have q1 : (c : ℚ) * k ≤ (m : ℚ) + c - 1 := by
          push_cast [Nat.cast_sub (show 1 ≤ m + c by omega)] at q0
          linarith
        push_cast
        nlinarith [q1]
      · rw [div_le_iff₀ hc, mul_comm]
        exact_mod_cast hub
  exact_mod_cast key

/-- Witness for C3 at `m = 5`, `c = 2`. -/
theorem getChunkCount_eq_ceil_witness :
    getChunkCount 5 2 = (⌈(5 : ℚ) / (2 : ℚ)⌉₊ : ℤ) ∧
    getChunkCount 5 2 = (((5 + 2 - 1) / 2 : ℕ) : ℤ) := by
  have := getChunkCount_eq_ceil 5 2 (by decide)
  exact_mod_cast this

/-- C4: for a nonnegative distance, the normalized score is `1/(1+d)`,
lies in `(0, 1]`, and distance `0` maps to score `1`. -/
theorem normalizeScore_range (d : ℚ) (h : 0 ≤ d) :
    normalizeScore d = 1 / (1 + d) ∧ 0 < normalizeScore d ∧
    normalizeScore d ≤ 1 ∧ normalizeScore 0 = 1 := by
  have h1 : (0 : ℚ) < 1 + d := by linarith
  refine ⟨rfl, ?_, ?_, by norm_num [normalizeScore]⟩
  · exact one_div_pos.mpr h1
  · rw [normalizeScore, div_le_one h1]; linarith

/-- Witness for C4 at `d = 2`. -/
theorem normalizeScore_range_witness :
    normalizeScore 2 = 1 / (1 + 2) ∧ 0 < normalizeScore 2 ∧
    normalizeScore 2 ≤ 1 ∧ normalizeScore 0 = 1 :=
  normalizeScore_range 2 (by norm_num)

/-- C5: the normalized score is strictly decreasing in the distance. -/
theorem normalizeScore_strict_anti (d1 d2 : ℚ) (h0 : 0 ≤ d1) (h12 : d1 < d2) :
    normalizeScore d2 < normalizeScore d1 := by
  have h1 : (0 : ℚ) < 1 + d1 := by linarith
  simp only [normalizeScore]
  exact one_div_lt_one_div_of_lt h1 (by linarith)

/-- Witness for C5 at `d1 = 0`, `d2 = 1`. -/
theorem normalizeScore_strict_anti_witness : normalizeScore 1 < normalizeScore 0 :=
  normalizeScore_strict_anti 0 1 (by norm_num) (by norm_num)

/-- If the separator never occurs, `firstSplit` finds nothing. -/
theorem firstSplit_eq_none (sep s : Str) (h : containsSub sep s = false) :
    firstSplit sep s = none := by
  induction s with
  | nil => rfl
  | cons c cs ih =>
    simp only [containsSub, Bool.or_eq_false_iff] at h
    simp only [firstSplit, h.1, Bool.false_eq_true, if_false, ih h.2]

/-- C7: an input without the footer separator is rejected by
`parseMemoryMarkdown` (the missing-frontmatter error), never defaulted. -/
theorem parseMemoryMarkdown_no_footer (s id now : Str)
    (h : containsSub footerSep s = false) :
    parseMemoryMarkdown s id now = none := by
  simp only [parseMemoryMarkdown, splitFirstTwo, firstSplit_eq_none footerSep s h]

/-- Witness for C7 on the footer-less input `"hello"`. -/
theorem parseMemoryMarkdown_no_footer_witness :
    containsSub footerSep "hello".data = false ∧
    parseMemoryMarkdown "hello".data "m1".data "NOW".data = none :=
  ⟨by decide, parseMemoryMarkdown_no_footer _ _ _ (by decide)⟩

/-- C6 counterexample: on a response containing neither section, the
summary is the trimmed response, not the response verbatim. -/
theorem parseSummarization_not_verbatim :
    findLabel "summary:".data "hello ".data = none ∧
    findLabel "key facts:".data "hello ".data = none ∧
    (parseSummarizationResponse "hello ".data).summary ≠ "hello ".data := by
  decide

/-- C6 (amended): with no `KEY FACTS:` section the key facts are empty;
with no `SUMMARY:` section the summary is the whole response, trimmed. -/
theorem parseSummarization_missing_sections (r : Str) :
    (findLabel "key facts:".data r = none →
      (parseSummarizationResponse r).keyFacts = []) ∧
    (findLabel "summary:".data r = none →
      (parseSummarizationResponse r).summary = jsTrim r) := by
  constructor
  · intro h
    simp [parseSummarizationResponse, h, splitChar, stripDash, jsTrim]
  · intro h
    simp [parseSummarizationResponse, h]

/-- Witness for C6 (amended) at the sectionless response `"hi"`. -/
theorem parseSummarization_missing_sections_witness :
    (parseSummarizationResponse "hi".data).keyFacts = [] ∧
    (parseSummarizationResponse "hi".data).summary = jsTrim "hi".data :=
  ⟨(parseSummarization_missing_sections _).1 (by decide),
   (parseSummarization_missing_sections _).2 (by decide)⟩

theorem validateConfig_accepts_fractional :
    Option.map MemoryConfig.chunkSize (validateConfig "/home/u".data rawCfgHalf)
      = some (1 / 2 : ℚ)
    ∧ ¬ (∃ n : ℤ, (1 : ℚ) / 2 = (n : ℚ) ∧ 0 < n) := by
  constructor
  · have he : embeddingsConfigSchemaParse rawCfgHalf.embeddings
        = some rawCfgHalf.embeddings := by decide
    have hs : summarizerConfigSchemaParse rawCfgHalf.summarizer
        = some rawCfgHalf.summarizer := by decide
    have hsc : searchConfigSchemaParse rawCfgHalf.search
        = some { hybridWeight := 7 / 10, defaultLimit := 10 } := by
      norm_num [searchConfigSchemaParse, rawCfgHalf]
    have hpos : (0 : ℚ) < (rawCfgHalf.chunkSize).getD 50 := by
      norm_num [rawCfgHalf]
    simp only [validateConfig, memoryConfigSchemaParse, he, hs, hsc, hpos, if_true]
    norm_num [rawCfgHalf, resolvePath]
  · rintro ⟨n, hn, hp⟩
    have h1 : (1 : ℚ) / 2 < 1 := by norm_num
    have h2 : (1 : ℚ) ≤ (n : ℚ) := by exact_mod_cast hp
    rw [hn] at h1
    linarith

/-- C8 (amended): every accepted configuration has a positive (rational)
`chunkSize`; a provided non-positive `chunkSize` is rejected; an omitted
`chunkSize` receives the default `50`; a provided one is kept verbatim. -/
theorem validateConfig_chunkSize_pos (hd : Str) (raw : RawMemoryConfig) :
    (∀ cfg, validateConfig hd raw = some cfg →
        0 < cfg.chunkSize ∧
        (raw.chunkSize = none → cfg.chunkSize = 50) ∧
        (∀ x, raw.chunkSize = some x → cfg.chunkSize = x)) ∧
    (∀ x, raw.chunkSize = some x → x ≤ 0 → validateConfig hd raw = none) := by
  unfold validateConfig memoryConfigSchemaParse
  cases he : embeddingsConfigSchemaParse raw.embeddings with
  | none => simp
  | some e =>
    cases hs : summarizerConfigSchemaParse raw.summarizer with
    | none => simp
    | some s =>
      cases hsc : searchConfigSchemaParse raw.search with
      | none => simp
      | some sc =>
        by_cases hpos : (0 : ℚ) < (raw.chunkSize).getD 50
        · simp only [hpos, if_true]
          constructor
          · rintro cfg hcfg
            obtain rfl : cfg =
                { storagePath :=
                    resolvePath hd (raw.storagePath.getD "~/.agent-memory".data)
                , embeddings := e, summarizer := s
                , chunkSize := raw.chunkSize.getD 50, search := sc } := by
              simpa using hcfg.symm
            refine ⟨hpos, ?_, ?_⟩
            · intro hnone; simp [hnone]
            · intro x hx; simp [hx]
          · rintro x hx hle
            rw [hx] at hpos
            simp only [Option.getD_some] at hpos
            linarith
        · simp [hpos]

/-- Witness for C8 (amended): the defaulted configuration is accepted with
the positive default chunk size `50`. -/
theorem validateConfig_chunkSize_pos_witness :
    0 < cfgOk.chunkSize ∧ cfgOk.chunkSize = 50 := by
  have hv : validateConfig "/home/u".data rawCfgOk = some cfgOk := by
    have he : embeddingsConfigSchemaParse rawCfgOk.embeddings
        = some rawCfgOk.embeddings := by decide
    have hs : summarizerConfigSchemaParse rawCfgOk.summarizer
        = some rawCfgOk.summarizer := by decide
    have hsc : searchConfigSchemaParse rawCfgOk.search
        = some { hybridWeight := 7 / 10, defaultLimit := 10 } := by
      norm_num [searchConfigSchemaParse, rawCfgOk]
    have hpos : (0 : ℚ) < (rawCfgOk.chunkSize).getD 50 := by
      norm_num [rawCfgOk]
    simp only [validateConfig, memoryConfigSchemaParse, he, hs, hsc, hpos, if_true]
    norm_num [rawCfgOk, cfgOk, resolvePath]
  have h := (validateConfig_chunkSize_pos "/home/u".data rawCfgOk).1 cfgOk hv
  exact ⟨h.1, h.2.1 rfl⟩

/-! ### C2: tombstone lemmas -/

theorem lookupA_setAssoc_self {α : Type} (l : List (Str × α)) (k : Str) (v m : α)
    (h : lookupA l k = some m) : lookupA (setAssoc k v l) k = some v := by
  induction l with
  | nil => simp [lookupA] at h
  | cons a l ih =>
    obtain ⟨a1, a2⟩ := a
    by_cases hk : k = a1
    · subst hk
      simp [setAssoc, lookupA]
    · simp only [lookupA, if_neg hk] at h
      simp only [setAssoc]
      by_cases h1 : a1 = k
      · exact absurd h1.symm hk
      · simp only [if_neg h1, lookupA, if_neg hk]
        exact ih h

theorem lookupA_setAssoc_ne {α : Type} (l : List (Str × α)) (k k2 : Str) (v : α)
    (h : k2 ≠ k) : lookupA (setAssoc k v l) k2 = lookupA l k2 := by
  induction l with
  | nil => simp [setAssoc]
  | cons a l ih =>
    obtain ⟨a1, a2⟩ := a
    by_cases h1 : a1 = k
    · subst h1
      simp only [setAssoc, if_pos rfl, lookupA, if_neg h, if_neg (h ·)]
      exact ih
    · simp only [setAssoc, if_neg h1, lookupA]
      by_cases h2 : k2 = a1
      · simp [h2]
      · simp only [if_neg h2]
        exact ih

theorem mem_setAssoc_eq {α : Type} {p : Str × α} {k : Str} {v : α}
    {l : List (Str × α)} (h : p ∈ setAssoc k v l) (hk : p.1 = k) : p.2 = v := by
  induction l with
  | nil => simp [setAssoc] at h
  | cons a l ih =>
    obtain ⟨a1, a2⟩ := a
    by_cases h1 : a1 = k
    · simp only [setAssoc, if_pos h1, List.mem_cons] at h
      rcases h with rfl | h
      · rfl
      · exact ih h
    · simp only [setAssoc, if_neg h1, List.mem_cons] at h
      rcases h with rfl | h
      · exact absurd hk h1
      · exact ih h

theorem mem_setAssoc_ne {α : Type} {p : Str × α} {k : Str} {v : α}
    {l : List (Str × α)} (h : p ∈ setAssoc k v l) (hk : p.1 ≠ k) : p ∈ l := by
  induction l with
  | nil => simp [setAssoc] at h
  | cons a l ih =>
    obtain ⟨a1, a2⟩ := a
    by_cases h1 : a1 = k
    · simp only [setAssoc, if_pos h1, List.mem_cons] at h
      rcases h with rfl | h
      · exact absurd h1 hk
      · exact List.mem_cons_of_mem _ (ih h)
    · simp only [setAssoc, if_neg h1, List.mem_cons] at h
      rcases h with rfl | h
      · exact List.mem_cons_self _ _
      · exact List.mem_cons_of_mem _ (ih h)

theorem lookupA_none {α : Type} {l : List (Str × α)} {k : Str}
    (h : lookupA l k = none) : ∀ p ∈ l, p.1 ≠ k := by
  induction l with
  | nil => intro p hp; simp at hp
  | cons a l ih =>
    obtain ⟨a1, a2⟩ := a
    intro p hp
    by_cases h1 : k = a1
    · simp [lookupA, h1] at h
    · simp only [lookupA, if_neg h1] at h
      rcases List.mem_cons.mp hp with rfl | hp2
      · exact fun hc => h1 hc.symm
      · exact ih h p hp2

theorem tombstoned_opDelete (s : MemState) (id now : Str) (m : WrittenMemory)
    (h : lookupA s.store id = some m) : Tombstoned (opDelete s id now) id := by
  simp only [opDelete, h]
  constructor
  · exact ⟨_, lookupA_setAssoc_self _ _ _ _ h, rfl⟩
  · cases hidx : lookupA s.index id with
    | none =>
      intro p hp hpid
      exact absurd hpid (lookupA_none hidx p hp)
    | some e =>
      intro p hp hpid
      rw [mem_setAssoc_eq hp hpid]

theorem tombstoned_step (s : MemState) (id : Str) (op : MemOp)
    (h : Tombstoned s id) : Tombstoned (stepOp s op) id := by
  obtain ⟨⟨m, hm, hmd⟩, hidx⟩ := h
  cases op with
  | write id2 m2 =>
    simp only [stepOp, opWrite]
    cases hw : lookupA s.store id2 with
    | some m3 => exact ⟨⟨m, hm, hmd⟩, hidx⟩
    | none =>
      have hne : id ≠ id2 := by
        intro hc; rw [hc, hw] at hm; exact Option.noConfusion hm
      constructor
      · refine ⟨m, ?_, hmd⟩
        simp only [lookupA, if_neg hne]
        exact hm
      · intro p hp hpid
        rcases List.mem_cons.mp hp with rfl | hp2
        · exact absurd hpid.symm hne
        · exact hidx p hp2 hpid
  | update id2 t c g now =>
    simp only [stepOp, opUpdate]
    cases hu : lookupA s.store id2 with
    | none => exact ⟨⟨m, hm, hmd⟩, hidx⟩
    | some m0 =>
      by_cases hid : id = id2
      · subst hid
        have hm0 : m0 = m := by rw [hu] at hm; exact (Option.some.injEq _ _ ▸ hm :)
        subst hm0
        constructor
        · exact ⟨_, lookupA_setAssoc_self _ _ _ _ hu, hmd⟩
        · cases hix : lookupA s.index id with
          | none => exact hidx
          | some e =>
            intro p hp hpid
            rw [mem_setAssoc_eq hp hpid]
            exact hmd
      · constructor
        · refine ⟨m, ?_, hmd⟩
          rw [lookupA_setAssoc_ne _ _ _ _ hid]
          exact hm
        · cases hix : lookupA s.index id2 with
          | none => exact hidx
          | some e =>
            intro p hp hpid
            have : p ∈ s.index := mem_setAssoc_ne hp (by rw [hpid]; exact hid)
            exact hidx p this hpid
  | del id2 now =>
    simp only [stepOp, opDelete]
    cases hu : lookupA s.store id2 with
    | none => exact ⟨⟨m, hm, hmd⟩, hidx⟩
    | some m0 =>
      by_cases hid : id = id2
      · subst hid
        constructor
        · exact ⟨_, lookupA_setAssoc_self _ _ _ _ hu, rfl⟩
        · cases hix : lookupA s.index id with
          | none => exact hidx
          | some e =>
            intro p hp hpid
            rw [mem_setAssoc_eq hp hpid]
      · constructor
        · refine ⟨m, ?_, hmd⟩
          rw [lookupA_setAssoc_ne _ _ _ _ hid]
          exact hm
        · cases hix : lookupA s.index id2 with
          | none => exact hidx
          | some e =>
            intro p hp hpid
            have : p ∈ s.index := mem_setAssoc_ne hp (by rw [hpid]; exact hid)
            exact hidx p this hpid

theorem tombstoned_runOps (s : MemState) (id : Str) (ops : List MemOp)
    (h : Tombstoned s id) : Tombstoned (runOps s ops) id := by
  induction ops generalizing s with
  | nil => exact h
  | cons op ops ih => exact ih _ (tombstoned_step s id op h)

theorem search_excludes_tombstoned (s : MemState) (id : Str)
    (q : Str × IdxEntry → Bool) (h : Tombstoned s id) : id ∉ searchIds s q := by
  intro hmem
  obtain ⟨p, hp, hpid⟩ := List.mem_map.mp hmem
  obtain ⟨hpin, hpf⟩ := List.mem_filter.mp hp
  have := h.2 p hpin hpid
  rw [this] at hpf
  simp at hpf

theorem read_some_tombstoned (s : MemState) (id : Str) (h : Tombstoned s id) :
    (readMem s id).isSome = true := by
  obtain ⟨⟨m, hm, _⟩, _⟩ := h
  simp [readMem, hm]

/-- C2: once `delete(id)` has completed, no subsequent `search` (with any
relevance predicate, over any further sequence of operations) returns
`id`, while a direct `read(id)` still succeeds. -/
theorem delete_tombstone_search_exclusion (s : MemState) (id now : Str)
    (m : WrittenMemory) (h : lookupA s.store id = some m) (ops : List MemOp)
    (q : Str × IdxEntry → Bool) :
    id ∉ searchIds (runOps (opDelete s id now) ops) q ∧
    (readMem (runOps (opDelete s id now) ops) id).isSome = true := by
  have ht := tombstoned_runOps _ id ops (tombstoned_opDelete s id now m h)
  exact ⟨search_excludes_tombstoned _ _ q ht, read_some_tombstoned _ _ ht⟩

/-- Witness for C2: delete `m1`, then run a write and an update; `m1` never
reappears in search output but is still readable. -/
theorem delete_tombstone_search_exclusion_witness :
    "m1".data ∉ searchIds
        (runOps (opDelete st0 "m1".data "t1".data)
          [ MemOp.write "m2".data memA
          , MemOp.update "m1".data none (some "new".data) none "t2".data ])
        (fun _ => true) ∧
    (readMem
        (runOps (opDelete st0 "m1".data "t1".data)
          [ MemOp.write "m2".data memA
          , MemOp.update "m1".data none (some "new".data) none "t2".data ])
        "m1".data).isSome = true :=
  delete_tombstone_search_exclusion st0 "m1".data "t1".data
    { memA with deleted := false } (by decide)
    [ MemOp.write "m2".data memA
    , MemOp.update "m1".data none (some "new".data) none "t2".data ]
    (fun _ => true)

/-! ### C9 / C10 -/

/-- C9 counterexample: the footer separator is present, yet parsing fails,
because the body segment is empty (JavaScript falsy). -/
theorem parseMemoryMarkdown_sep_present_error :
    containsSub footerSep "\n---\ntags: a".data = true ∧
    parseMemoryMarkdown "\n---\ntags: a".data "m1".data "NOW".data = none := by
  decide

/-- C9 (amended): when the separator is present and both segments are
nonempty, parsing succeeds; missing `created`/`updated` keys are replaced
by the current time, and `deleted` holds iff the footer value is exactly
`true`. -/
theorem parseMemoryMarkdown_footer_fields (s id now body fm : Str)
    (hsplit : splitFirstTwo footerSep s = (body, some fm))
    (hb : body ≠ []) (hf : fm ≠ []) :
    ∃ m, parseMemoryMarkdown s id now = some m
      ∧ m.createdAt = (metaLookup fm "created".data).getD now
      ∧ m.updatedAt = (metaLookup fm "updated".data).getD now
      ∧ (m.deleted = true ↔ metaLookup fm "deleted".data = some "true".data) := by
  simp only [parseMemoryMarkdown, hsplit]
  rw [if_neg (by simp [hb, hf])]
  refine ⟨_, rfl, rfl, rfl, ?_⟩
  exact beq_iff_eq

/-- Witness for C9 (amended) on a footer that has only a `deleted` key:
both timestamps fall back to the clock value `NOW`. -/
theorem parseMemoryMarkdown_footer_fields_witness :
    ∃ m, parseMemoryMarkdown "# T\n\nB\n---\ndeleted: true".data "m1".data "NOW".data
        = some m
      ∧ m.createdAt = "NOW".data ∧ m.updatedAt = "NOW".data ∧ m.deleted = true := by
  obtain ⟨m, hm, h1, h2, h3⟩ :=
    parseMemoryMarkdown_footer_fields "# T\n\nB\n---\ndeleted: true".data
      "m1".data "NOW".data "# T\n\nB".data "deleted: true".data
      (by decide) (by decide) (by decide)
  refine ⟨m, hm, ?_, ?_, h3.mpr (by decide)⟩
  · rw [h1]; decide
  · rw [h2]; decide

/-- C10 counterexample: the separator is present and the body has no
heading, yet parsing fails, because the footer segment is empty. -/
theorem parseMemoryMarkdown_headingless_error :
    containsSub footerSep "x\n---\n".data = true ∧
    (splitFirstTwo footerSep "x\n---\n".data).1 = "x".data ∧
    ¬ "# ".data <+: "x".data ∧
    parseMemoryMarkdown "x\n---\n".data "m1".data "NOW".data = none := by
  refine ⟨by decide, by decide, by decide, by decide⟩

/-- C10 (amended): when the separator is present, both segments are
nonempty, and the body does not begin with `"# "`, parsing succeeds with
title `Untitled` and the body (trimmed) as content. -/
theorem parseMemoryMarkdown_untitled (s id now body fm : Str)
    (hsplit : splitFirstTwo footerSep s = (body, some fm))
    (hb : body ≠ []) (hf : fm ≠ [])
    (hhead : ¬ "# ".data <+: body) :
    ∃ m, parseMemoryMarkdown s id now = some m
      ∧ m.title = "Untitled".data ∧ m.content = jsTrim body := by
  have hmt : matchTitle body = none := by
    rw [matchTitle.eq_def]
    split
    · exact absurd ⟨_, rfl⟩ hhead
    · rfl
  have hst : stripTitle body = body := by
    simp [stripTitle, hmt]
  simp only [parseMemoryMarkdown, hsplit]
  rw [if_neg (by simp [hb, hf])]
  exact ⟨_, rfl, by simp [hmt], by rw [hst]⟩

/-- Witness for C10 (amended) on `"hello\n---\ntags: "`. -/
theorem parseMemoryMarkdown_untitled_witness :
    ∃ m, parseMemoryMarkdown "hello\n---\ntags: ".data "m1".data "NOW".data = some m
      ∧ m.title = "Untitled".data ∧ m.content = jsTrim "hello".data :=
  parseMemoryMarkdown_untitled "hello\n---\ntags: ".data "m1".data "NOW".data
    "hello".data "tags: ".data (by decide) (by decide) (by decide) (by decide)

/-! ### C1: round-trip -/

/-- C1 counterexample: formatting then parsing the note whose content
contains a `---` line does not return the same note (the content line
`---` is mistaken for the footer separator). -/
theorem parse_format_not_roundtrip :
    parseMemoryMarkdown (formatMemoryMarkdown memSepContent) memSepContent.id
      "2099-01-01T00:00:00Z".data ≠ some memSepContent := by
  decide

/-- Dropping whitespace from an appended list. -/
theorem dropWhile_jsWhite_append (s b : Str) :
    (s ++ b).dropWhile jsWhite =
      if (s.dropWhile jsWhite).isEmpty then b.dropWhile jsWhite
      else s.dropWhile jsWhite ++ b := by
  induction s with
  | nil => simp
  | cons c s ih =>
    by_cases hc : jsWhite c
    · simp [List.dropWhile_cons, hc, ih]
    · simp [List.dropWhile_cons, hc]

/-- `trim` ignores a leading whitespace character. -/
theorem jsTrim_cons_white (c : Char) (s : Str) (hc : jsWhite c = true) :
    jsTrim (c :: s) = jsTrim s := by
  simp [jsTrim, List.dropWhile_cons, hc]

/-- `trim` ignores a trailing whitespace character. -/
theorem jsTrim_append_white (c : Char) (s : Str) (hc : jsWhite c = true) :
    jsTrim (s ++ [c]) = jsTrim s := by
  unfold jsTrim
  rw [dropWhile_jsWhite_append]
  by_cases hall : (s.dropWhile jsWhite).isEmpty
  · have h0 : s.dropWhile jsWhite = [] := List.isEmpty_iff.mp hall
    rw [if_pos hall, h0]
    simp [List.dropWhile_cons, hc]
  · rw [if_neg hall]
    simp [List.reverse_append, List.dropWhile_cons, hc]

/-- A substring whose first character never occurs in `a` cannot start
inside `a`. -/
theorem containsSub_append_not_head (h0 : Char) (sub a b : Str)
    (ha : h0 ∉ a) :
    containsSub (h0 :: sub) (a ++ b) = containsSub (h0 :: sub) b := by
  induction a with
  | nil => rfl
  | cons c a ih =>
    have hc : (h0 == c) = false := by
      simp only [beq_eq_false_iff_ne, ne_eq]
      intro hcc
      exact ha (by simp [hcc])
    simp only [List.cons_append, containsSub, List.isPrefixOf, hc, Bool.false_and,
      Bool.false_or]
    exact ih (fun hm => ha (List.mem_cons_of_mem _ hm))

/-- A string whose characters all differ from the head of `sub` does not
contain `sub`. -/
theorem containsSub_eq_false_not_head (h0 : Char) (sub s : Str) (hs : h0 ∉ s) :
    containsSub (h0 :: sub) s = false := by
  induction s with
  | nil => rfl
  | cons c s ih =>
    have hc : (h0 == c) = false := by
      simp only [beq_eq_false_iff_ne, ne_eq]
      intro hcc
      exact hs (by simp [hcc])
    simp only [containsSub, List.isPrefixOf, hc, Bool.false_and, Bool.false_or]
    exact ih (fun hm => hs (List.mem_cons_of_mem _ hm))

/-- If `"\n---"` is not a prefix of nonempty `B`, the footer separator is
not a prefix of `B ++ footerSep ++ Y`. -/
theorem footer_not_prefix_step (B Y : Str) (hB : B ≠ [])
    (h4 : ("\n---".data).isPrefixOf B = false) :
    footerSep.isPrefixOf (B ++ footerSep ++ Y) = false := by
  match B with
  | [] => exact absurd rfl hB
  | [b1] =>
    simp only [footerSep, List.cons_append, List.nil_append, List.isPrefixOf,
      List.append_assoc]
    simp [Bool.and_eq_false_iff]
  | [b1, b2] =>
    simp only [footerSep, List.cons_append, List.nil_append, List.isPrefixOf,
      List.append_assoc]
    simp [Bool.and_eq_false_iff]
  | [b1, b2, b3] =>
    simp only [footerSep, List.cons_append, List.nil_append, List.isPrefixOf,
      List.append_assoc]
    simp [Bool.and_eq_false_iff]
  | b1 :: b2 :: b3 :: b4 :: B' =>
    simp only [List.isPrefixOf, Bool.and_eq_false_iff] at h4
    simp only [footerSep, List.cons_append, List.isPrefixOf, Bool.and_eq_false_iff]
    rcases h4 with h | h | h | h | h
    · exact Or.inl h
    · exact Or.inr (Or.inl h)
    · exact Or.inr (Or.inr (Or.inl h))
    · exact Or.inr (Or.inr (Or.inr (Or.inl h)))
    · simp at h

/-- When `X` is free of `"\n---"`, the leftmost footer separator in
`X ++ footerSep ++ Y` is the explicit one. -/
theorem firstSplit_footer_append (X Y : Str)
    (hX : containsSub "\n---".data X = false) :
    firstSplit footerSep (X ++ footerSep ++ Y) = some (X, Y) := by
  induction X with
  | nil =>
    have hpre : footerSep.isPrefixOf (footerSep ++ Y) = true := by
      rw [ List.isPrefixOf_iff_prefix]
      exact footerSep.prefix_append Y
    have hcons : ([] : Str) ++ footerSep ++ Y = footerSep ++ Y := by simp
    rw [hcons]
    show firstSplit footerSep (footerSep ++ Y) = some ([], Y)
    rw [show footerSep ++ Y = '\n' :: ("---\n".data ++ Y) from rfl]
    simp only [firstSplit]
    rw [show ('\n' :: ("---\n".data ++ Y)) = footerSep ++ Y from rfl, hpre]
    simp only [if_true]
    rw [List.drop_left]
  | cons c X ih =>
    simp only [containsSub, Bool.or_eq_false_iff] at hX
    have hstep : footerSep.isPrefixOf ((c :: X) ++ footerSep ++ Y) = false :=
      footer_not_prefix_step (c :: X) Y (by simp) hX.1
    have hshape : (c :: X) ++ footerSep ++ Y = c :: (X ++ footerSep ++ Y) := by simp
    rw [hshape] at hstep ⊢
    simp only [firstSplit, hstep, Bool.false_eq_true, if_false, ih hX.2]

theorem fmtBody_cons (m : WrittenMemory) :
    fmtBody m = '#' :: ' ' :: (m.title ++ '\n' :: '\n' :: (m.content ++ ['\n'])) := rfl

/-- The formatted memory splits as body, separator, footer. -/
theorem format_decompose (m : WrittenMemory) :
    formatMemoryMarkdown m = fmtBody m ++ footerSep ++ fmtFooter m := by
  simp only [formatMemoryMarkdown, fmtBody, fmtFooter, footerSep, List.intercalate,
    List.intersperse, List.flatten, List.cons_append, List.nil_append,
    List.append_assoc, List.append_nil]

theorem intercalate_singleton (sep a : Str) : List.intercalate sep [a] = a := by
  simp [List.intercalate, List.intersperse]

theorem intercalate_cons_cons (sep a b : Str) (l : List Str) :
    List.intercalate sep (a :: b :: l) = a ++ sep ++ List.intercalate sep (b :: l) := by
  simp [List.intercalate, List.intersperse, List.append_assoc]

/-- A character avoided by every part and by the separator does not occur
in the intercalation. -/
theorem not_mem_intercalate (c : Char) (sep : Str) (L : List Str)
    (hsep : c ∉ sep) (h : ∀ t ∈ L, c ∉ t) : c ∉ List.intercalate sep L := by
  induction L with
  | nil => simp [List.intercalate, List.intersperse]
  | cons t L ih =>
    cases L with
    | nil =>
      rw [intercalate_singleton]
      exact h t (by simp)
    | cons b L2 =>
      rw [intercalate_cons_cons]
      intro hmem
      rcases List.mem_append.mp hmem with hmem1 | hmem2
      · rcases List.mem_append.mp hmem1 with hmem3 | hmem4
        · exact h t (by simp) hmem3
        · exact hsep hmem4
      · exact ih (fun u hu => h u (List.mem_cons_of_mem _ hu)) hmem2

/-- The footer separator never starts at a newline followed by a
non-dash character. -/
theorem footer_not_prefix_cons (c : Char) (u : Str) (hc : c ≠ '-') :
    footerSep.isPrefixOf ('\n' :: c :: u) = false := by
  have hbc : (('-' : Char) == c) = false := by
    simp only [beq_eq_false_iff_ne, ne_eq]
    exact fun hcc => hc hcc.symm
  simp [footerSep, List.isPrefixOf, hbc]

/-- Skipping a newline-free region when looking for the footer separator. -/
theorem containsSub_footer_append (a b : Str) (ha : '\n' ∉ a) :
    containsSub footerSep (a ++ b) = containsSub footerSep b :=
  containsSub_append_not_head '\n' ('-' :: '-' :: '-' :: '\n' :: []) a b ha

/-- A newline-free string does not contain the footer separator. -/
theorem containsSub_footer_not_head (s : Str) (hs : '\n' ∉ s) :
    containsSub footerSep s = false :=
  containsSub_eq_false_not_head '\n' ('-' :: '-' :: '-' :: '\n' :: []) s hs

theorem footer_skip_line (k v b : Str) (hk : '\n' ∉ k) (hkd : k.head? ≠ some '-')
    (hk0 : k ≠ []) (hv : '\n' ∉ v) :
    containsSub footerSep ('\n' :: (k ++ (v ++ ('\n' :: b))))
      = containsSub footerSep ('\n' :: b) := by
  cases k with
  | nil => exact absurd rfl hk0
  | cons c u =>
    have hc : c ≠ '-' := by intro h; exact hkd (by simp [h])
    rw [containsSub]
    simp only [List.cons_append]
    rw [footer_not_prefix_cons c _ hc, Bool.false_or]
    rw [show c :: (u ++ (v ++ ('\n' :: b))) = (c :: (u ++ v)) ++ ('\n' :: b) by
      simp [List.append_assoc]]
    apply containsSub_footer_append
    intro hmem
    rcases List.mem_cons.mp hmem with rfl | hmem2
    · exact hk (by simp)
    · rcases List.mem_append.mp hmem2 with h | h
      · exact hk (List.mem_cons_of_mem _ h)
      · exact hv h

theorem footer_last_line (k v : Str) (hk : '\n' ∉ k) (hkd : k.head? ≠ some '-')
    (hk0 : k ≠ []) (hv : '\n' ∉ v) :
    containsSub footerSep ('\n' :: (k ++ v)) = false := by
  cases k with
  | nil => exact absurd rfl hk0
  | cons c u =>
    have hc : c ≠ '-' := by intro h; exact hkd (by simp [h])
    rw [containsSub]
    simp only [List.cons_append]
    rw [footer_not_prefix_cons c _ hc, Bool.false_or]
    apply containsSub_eq_false_not_head
    intro hmem
    rcases List.mem_cons.mp hmem with rfl | hmem2
    · exact hk (by simp)
    · rcases List.mem_append.mp hmem2 with h | h
      · exact hk (List.mem_cons_of_mem _ h)
      · exact hv h

/-- The footer segment of a formatted memory never contains the footer
separator (keys are fixed, values are newline-free). -/
theorem fmtFooter_no_sep (m : WrittenMemory)
    (htags : ∀ t ∈ m.tags, '\n' ∉ t)
    (hca : '\n' ∉ m.createdAt) (hua : '\n' ∉ m.updatedAt) :
    containsSub footerSep (fmtFooter m) = false := by
  have hds : '\n' ∉ (if m.deleted then "true".data else "false".data) := by
    cases m.deleted <;> decide
  have htj : '\n' ∉ List.intercalate ", ".data m.tags :=
    not_mem_intercalate '\n' ", ".data m.tags (by decide) htags
  unfold fmtFooter
  rw [containsSub_footer_append _ _ (by decide)]
  rw [containsSub_footer_append _ _ htj]
  rw [footer_skip_line "created: ".data m.createdAt _ (by decide) (by decide)
    (by decide) hca]
  rw [footer_skip_line "updated: ".data m.updatedAt _ (by decide) (by decide)
    (by decide) hua]
  exact footer_last_line "deleted: ".data _ (by decide) (by decide) (by decide) hds

theorem isPrefixOf_nldash_append_nl (s : Str)
    (h : ("\n---".data).isPrefixOf s = false) :
    ("\n---".data).isPrefixOf (s ++ ['\n']) = false := by
  match s with
  | [] => decide
  | [a] => simp [List.isPrefixOf]
  | [a, b] => simp [List.isPrefixOf]
  | [a, b, c] => simp [List.isPrefixOf]
  | a :: b :: c :: d :: r =>
    simp only [List.cons_append, List.isPrefixOf] at h ⊢
    exact h

theorem containsSub_nldash_append_nl (C : Str)
    (h : containsSub "\n---".data C = false) :
    containsSub "\n---".data (C ++ ['\n']) = false := by
  induction C with
  | nil => decide
  | cons c C ih =>
    simp only [containsSub, Bool.or_eq_false_iff] at h
    simp only [List.cons_append, containsSub, Bool.or_eq_false_iff]
    exact ⟨isPrefixOf_nldash_append_nl (c :: C) h.1, ih h.2⟩

theorem dash3_not_prefix_append (C : Str) (h : ¬ ("---".data <+: C)) :
    ("---".data).isPrefixOf (C ++ ['\n']) = false := by
  match C with
  | [] => decide
  | [a] => simp [List.isPrefixOf]
  | [a, b] => simp [List.isPrefixOf]
  | a :: b :: c :: r =>
    rw [Bool.eq_false_iff]
    intro hcontra
    rw [ List.isPrefixOf_iff_prefix] at hcontra
    simp only [List.cons_append, List.cons_prefix_cons] at hcontra
    obtain ⟨h1, h2, h3, _⟩ := hcontra
    subst h1; subst h2; subst h3
    exact h ⟨r, rfl⟩

/-- The body segment of a formatted memory contains no `"\n---"` when the
title is newline-free and the content has no line starting with `---`. -/
theorem fmtBody_no_nldash (m : WrittenMemory)
    (hT : '\n' ∉ m.title)
    (hC2 : ¬ ("---".data <+: m.content))
    (hC3 : containsSub "\n---".data m.content = false) :
    containsSub "\n---".data (fmtBody m) = false := by
  unfold fmtBody
  rw [show ("\n---".data : Str) = '\n' :: "---".data from rfl]
  rw [containsSub_append_not_head '\n' _ _ _ (by decide)]
  rw [containsSub_append_not_head '\n' _ _ _ hT]
  rw [containsSub]
  rw [show (List.isPrefixOf ('\n' :: "---".data)
      ('\n' :: '\n' :: (m.content ++ ['\n']))) = false by simp [List.isPrefixOf]]
  rw [Bool.false_or, containsSub]
  rw [show (List.isPrefixOf ('\n' :: "---".data) ('\n' :: (m.content ++ ['\n'])))
      = ("---".data).isPrefixOf (m.content ++ ['\n']) by simp [List.isPrefixOf]]
  rw [dash3_not_prefix_append _ hC2, Bool.false_or]
  rw [show ('\n' :: "---".data : Str) = "\n---".data from rfl]
  exact containsSub_nldash_append_nl _ hC3

theorem jsTrim_length_le (s : Str) : (jsTrim s).length ≤ s.length := by
  unfold jsTrim
  have h1 := (List.dropWhile_suffix (l := (s.dropWhile jsWhite).reverse) jsWhite).length_le
  have h2 := (List.dropWhile_suffix (l := s) jsWhite).length_le
  simp only [List.length_reverse] at h1 ⊢
  omega

theorem head_not_white_of_jsTrim (s : Str) (h : jsTrim s = s) (c : Char)
    (hc : s.head? = some c) : jsWhite c = false := by
  by_contra hw
  rw [Bool.not_eq_false] at hw
  cases s with
  | nil => simp at hc
  | cons a t =>
    obtain rfl : a = c := by simpa using hc
    have hdrop : (a :: t).dropWhile jsWhite = t.dropWhile jsWhite := by
      simp [List.dropWhile_cons, hw]
    have hlen : (jsTrim (a :: t)).length ≤ t.length := by
      unfold jsTrim
      rw [hdrop]
      have h1 := (List.dropWhile_suffix (l := (t.dropWhile jsWhite).reverse) jsWhite).length_le
      have h2 := (List.dropWhile_suffix (l := t) jsWhite).length_le
      simp only [List.length_reverse] at h1 ⊢
      omega
    rw [h] at hlen
    simp only [List.length_cons] at hlen
    omega

theorem last_not_white_of_jsTrim (s : Str) (h : jsTrim s = s) (c : Char)
    (hc : s.getLast? = some c) : jsWhite c = false := by
  by_contra hw
  rw [Bool.not_eq_false] at hw
  rcases List.eq_nil_or_concat s with rfl | ⟨t, a, rfl⟩
  · simp at hc
  · rw [List.concat_eq_append] at h hc
    obtain rfl : a = c := by
      rw [List.getLast?_concat] at hc
      simpa using hc
    have htrim : jsTrim (t ++ [a]) = jsTrim t := jsTrim_append_white a t hw
    have h1 := jsTrim_length_le t
    rw [htrim] at h
    have h2 := congrArg List.length h
    simp only [List.length_append, List.length_cons, List.length_nil] at h2
    omega

theorem jsTrim_eq_self_of_ends (s : Str)
    (h1 : ∀ c, s.head? = some c → jsWhite c = false)
    (h2 : ∀ c, s.getLast? = some c → jsWhite c = false) : jsTrim s = s := by
  cases s with
  | nil => rfl
  | cons a t =>
    have hhead : jsWhite a = false := h1 a rfl
    unfold jsTrim
    rw [List.dropWhile_cons, hhead]
    simp only [Bool.false_eq_true, if_false]
    cases hrev : (a :: t).reverse with
    | nil => simp at hrev
    | cons b r =>
      have hb : jsWhite b = false := by
        apply h2
        rw [← List.head?_reverse, hrev]
        rfl
      rw [List.dropWhile_cons, hb]
      simp only [Bool.false_eq_true, if_false]
      rw [← hrev, List.reverse_reverse]

theorem splitCommaSpace_cons_ne (c : Char) (hc : c ≠ ',') (r : Str) :
    splitCommaSpace (c :: r) =
      match splitCommaSpace r with
      | [] => [[c]]
      | g :: gs => (c :: g) :: gs := by
  rw [splitCommaSpace.eq_def]
  split
  · rename_i heq
    exact absurd heq (List.cons_ne_nil c r)
  · rename_i heq
    rw [List.cons.injEq] at heq
    exact absurd heq.1 hc
  · rename_i heq
    rw [List.cons.injEq] at heq
    obtain ⟨rfl, rfl⟩ := heq
    rfl

theorem splitCommaSpace_comma_cons (c2 : Char) (hc2 : c2 ≠ ' ') (r : Str) :
    splitCommaSpace (',' :: c2 :: r) =
      match splitCommaSpace (c2 :: r) with
      | [] => [[',']]
      | g :: gs => (',' :: g) :: gs := by
  rw [splitCommaSpace.eq_def]
  split
  · rename_i heq
    exact absurd heq (List.cons_ne_nil _ _)
  · rename_i heq
    rw [List.cons.injEq, List.cons.injEq] at heq
    exact absurd heq.2.1 hc2
  · rename_i heq
    rw [List.cons.injEq] at heq
    obtain ⟨rfl, rfl⟩ := heq
    rfl

theorem splitCommaSpace_append (t R : Str)
    (ht : containsSub (',' :: ' ' :: []) t = false) :
    splitCommaSpace (t ++ ',' :: ' ' :: R) = t :: splitCommaSpace R := by
  induction t with
  | nil => simp [splitCommaSpace]
  | cons c t ih =>
    simp only [containsSub, Bool.or_eq_false_iff] at ht
    obtain ⟨hp, hrest⟩ := ht
    have ihr := ih hrest
    by_cases hc : c = ','
    · subst hc
      cases t with
      | nil =>
        rw [show (([','] : Str) ++ ',' :: ' ' :: R) = ',' :: ',' :: ' ' :: R from rfl]
        rw [splitCommaSpace_comma_cons ',' (by decide) (' ' :: R)]
        rw [show splitCommaSpace (',' :: ' ' :: R) = [] :: splitCommaSpace R by
          simp [splitCommaSpace]]
      | cons c2 t2 =>
        have hc2 : c2 ≠ ' ' := by
          intro h2
          subst h2
          simp [List.isPrefixOf] at hp
        rw [show ((',' :: c2 :: t2 : Str) ++ ',' :: ' ' :: R)
            = ',' :: c2 :: (t2 ++ ',' :: ' ' :: R) from by simp]
        rw [splitCommaSpace_comma_cons c2 hc2 _]
        rw [List.cons_append] at ihr
        rw [ihr]
    · rw [show ((c :: t : Str) ++ ',' :: ' ' :: R) = c :: (t ++ ',' :: ' ' :: R) from by simp]
      rw [splitCommaSpace_cons_ne c hc _]
      rw [ihr]

theorem splitCommaSpace_single (t : Str)
    (ht : containsSub (',' :: ' ' :: []) t = false) :
    splitCommaSpace t = [t] := by
  induction t with
  | nil => rfl
  | cons c t ih =>
    simp only [containsSub, Bool.or_eq_false_iff] at ht
    obtain ⟨hp, hrest⟩ := ht
    have ihr := ih hrest
    by_cases hc : c = ','
    · subst hc
      cases t with
      | nil => decide
      | cons c2 t2 =>
        have hc2 : c2 ≠ ' ' := by
          intro h2
          subst h2
          simp [List.isPrefixOf] at hp
        rw [splitCommaSpace_comma_cons c2 hc2 t2, ihr]
    · rw [splitCommaSpace_cons_ne c hc t, ihr]

theorem splitCommaSpace_intercalate (L : List Str)
    (hL : ∀ t ∈ L, containsSub (',' :: ' ' :: []) t = false) (h0 : L ≠ []) :
    splitCommaSpace (List.intercalate ", ".data L) = L := by
  induction L with
  | nil => exact absurd rfl h0
  | cons t L ih =>
    cases L with
    | nil =>
      rw [intercalate_singleton]
      exact splitCommaSpace_single t (hL t (by simp))
    | cons b L2 =>
      rw [intercalate_cons_cons, List.append_assoc]
      rw [show ((", ".data : Str) ++ List.intercalate ", ".data (b :: L2))
          = ',' :: ' ' :: List.intercalate ", ".data (b :: L2) from rfl]
      rw [splitCommaSpace_append t _ (hL t (by simp))]
      rw [ih (fun u hu => hL u (List.mem_cons_of_mem _ hu)) (by simp)]

theorem head?_append_left (l1 l2 : Str) (h : l1 ≠ []) :
    (l1 ++ l2).head? = l1.head? := by
  cases l1 with
  | nil => exact absurd rfl h
  | cons a t => rfl

theorem head?_intercalate (sep : Str) (t : Str) (L : List Str) (h : t ≠ []) :
    (List.intercalate sep (t :: L)).head? = t.head? := by
  cases L with
  | nil => rw [intercalate_singleton]
  | cons b L2 =>
    rw [intercalate_cons_cons, List.append_assoc]
    exact head?_append_left t _ h

theorem getLast?_intercalate (sep : Str) (L : List Str)
    (hL : ∀ t ∈ L, t ≠ []) (h0 : L ≠ []) :
    ∃ t ∈ L, (List.intercalate sep L).getLast? = t.getLast? := by
  induction L with
  | nil => exact absurd rfl h0
  | cons t L ih =>
    cases L with
    | nil =>
      refine ⟨t, by simp, ?_⟩
      rw [intercalate_singleton]
    | cons b L2 =>
      obtain ⟨u, hu, heq⟩ := ih (fun x hx => hL x (List.mem_cons_of_mem _ hx)) (by simp)
      refine ⟨u, List.mem_cons_of_mem _ hu, ?_⟩
      rw [intercalate_cons_cons]
      rw [List.getLast?_append_of_ne_nil]
      · exact heq
      · intro hnil
        have hb : (List.intercalate sep (b :: L2)).head? = b.head? :=
          head?_intercalate sep b L2 (hL b (by simp))
        rw [hnil] at hb
        cases hbv : b with
        | nil => exact hL b (by simp) hbv
        | cons x xs => rw [hbv] at hb; simp at hb

/-- The comma-space join of nonempty trim-stable tags is trim-stable. -/
theorem jsTrim_intercalate_tags (L : List Str)
    (h : ∀ t ∈ L, t ≠ [] ∧ jsTrim t = t) :
    jsTrim (List.intercalate ", ".data L) = List.intercalate ", ".data L := by
  cases L with
  | nil => rfl
  | cons t L2 =>
    apply jsTrim_eq_self_of_ends
    · intro c hc
      rw [head?_intercalate ", ".data t L2 (h t (by simp)).1] at hc
      exact head_not_white_of_jsTrim t (h t (by simp)).2 c hc
    · intro c hc
      obtain ⟨u, hu, heq⟩ :=
        getLast?_intercalate ", ".data (t :: L2) (fun x hx => (h x hx).1) (by simp)
      rw [heq] at hc
      exact last_not_white_of_jsTrim u (h u hu).2 c hc

theorem takeWhile_append_all (p : Char → Bool) (a b : Str)
    (ha : ∀ x ∈ a, p x = true) :
    (a ++ b).takeWhile p = a ++ b.takeWhile p := by
  induction a with
  | nil => rfl
  | cons c a ih =>
    simp only [List.cons_append, List.takeWhile_cons, ha c (by simp), if_true]
    rw [ih (fun x hx => ha x (List.mem_cons_of_mem _ hx))]

theorem splitChar_nl_cons (b : Str) :
    splitChar '\n' ('\n' :: b) = [] :: splitChar '\n' b := by
  simp [splitChar]

theorem splitChar_nl_cons_ne (c : Char) (hc : c ≠ '\n') (b : Str) :
    splitChar '\n' (c :: b) =
      match splitChar '\n' b with
      | [] => [[c]]
      | g :: gs => (c :: g) :: gs := by
  simp [splitChar, hc]

theorem splitChar_ne_nil (s : Str) : splitChar '\n' s ≠ [] := by
  induction s with
  | nil => simp [splitChar]
  | cons c t ih =>
    by_cases hc : c = '\n'
    · subst hc; rw [splitChar_nl_cons]; simp
    · rw [splitChar_nl_cons_ne c hc]
      cases h : splitChar '\n' t with
      | nil => simp
      | cons g gs => simp

theorem splitChar_nl_append (a b : Str) (ha : '\n' ∉ a) :
    splitChar '\n' (a ++ '\n' :: b) = a :: splitChar '\n' b := by
  induction a with
  | nil => exact splitChar_nl_cons b
  | cons c a ih =>
    have hc : c ≠ '\n' := fun h => ha (by simp [h])
    rw [List.cons_append, splitChar_nl_cons_ne c hc]
    rw [ih (fun hm => ha (List.mem_cons_of_mem _ hm))]

theorem splitChar_nl_single (a : Str) (ha : '\n' ∉ a) :
    splitChar '\n' a = [a] := by
  induction a with
  | nil => rfl
  | cons c a ih =>
    have hc : c ≠ '\n' := fun h => ha (by simp [h])
    rw [splitChar_nl_cons_ne c hc]
    rw [ih (fun hm => ha (List.mem_cons_of_mem _ hm))]

theorem lineKV_keyline (k v : Str) (hk : k ≠ []) (hkc : ':' ∉ k) :
    lineKV (k ++ ':' :: v) = some (jsTrim k, jsTrim v) := by
  simp only [lineKV]
  rw [takeWhile_append_all _ _ _ ?side]
  case side =>
    intro x hx
    simp only [decide_eq_true_eq]
    intro hh
    exact hkc (hh ▸ hx)
  have htw : List.takeWhile (fun c => decide (¬ c = ':')) (':' :: v) = [] := by
    simp [List.takeWhile_cons]
  rw [htw, List.append_nil]
  rw [if_pos ⟨hk, by simp⟩]
  have hdrop := @List.drop_append Char k (':' :: v) 1
  simp only [List.drop_succ_cons, List.drop_zero] at hdrop
  rw [hdrop]

theorem lineKV_tags (v : Str) :
    lineKV ('t' :: 'a' :: 'g' :: 's' :: ':' :: ' ' :: v)
      = some ("tags".data, jsTrim v) := by
  have h := lineKV_keyline "tags".data (' ' :: v) (by decide) (by decide)
  rw [jsTrim_cons_white ' ' v (by decide),
    show jsTrim "tags".data = "tags".data from by decide] at h
  exact h

theorem lineKV_created (v : Str) :
    lineKV ('c' :: 'r' :: 'e' :: 'a' :: 't' :: 'e' :: 'd' :: ':' :: ' ' :: v)
      = some ("created".data, jsTrim v) := by
  have h := lineKV_keyline "created".data (' ' :: v) (by decide) (by decide)
  rw [jsTrim_cons_white ' ' v (by decide),
    show jsTrim "created".data = "created".data from by decide] at h
  exact h

theorem lineKV_updated (v : Str) :
    lineKV ('u' :: 'p' :: 'd' :: 'a' :: 't' :: 'e' :: 'd' :: ':' :: ' ' :: v)
      = some ("updated".data, jsTrim v) := by
  have h := lineKV_keyline "updated".data (' ' :: v) (by decide) (by decide)
  rw [jsTrim_cons_white ' ' v (by decide),
    show jsTrim "updated".data = "updated".data from by decide] at h
  exact h

theorem lineKV_deleted (v : Str) :
    lineKV ('d' :: 'e' :: 'l' :: 'e' :: 't' :: 'e' :: 'd' :: ':' :: ' ' :: v)
      = some ("deleted".data, jsTrim v) := by
  have h := lineKV_keyline "deleted".data (' ' :: v) (by decide) (by decide)
  rw [jsTrim_cons_white ' ' v (by decide),
    show jsTrim "deleted".data = "deleted".data from by decide] at h
  exact h

/-- The frontmatter of a formatted memory parses into its four key-value
pairs (values trimmed). -/
theorem parseFrontmatter_fmtFooter (m : WrittenMemory)
    (htags : ∀ t ∈ m.tags, '\n' ∉ t)
    (hca : '\n' ∉ m.createdAt) (hua : '\n' ∉ m.updatedAt) :
    parseFrontmatter (fmtFooter m) =
      [ ("tags".data, jsTrim (List.intercalate ", ".data m.tags))
      , ("created".data, jsTrim m.createdAt)
      , ("updated".data, jsTrim m.updatedAt)
      , ("deleted".data, jsTrim (if m.deleted then "true".data else "false".data)) ] := by
  have hds : '\n' ∉ (if m.deleted then "true".data else "false".data) := by
    cases m.deleted <;> decide
  have htj : '\n' ∉ List.intercalate ", ".data m.tags :=
    not_mem_intercalate '\n' ", ".data m.tags (by decide) htags
  have h1 : '\n' ∉ ("tags: ".data ++ List.intercalate ", ".data m.tags) := by
    intro hmem
    rcases List.mem_append.mp hmem with hX | hX
    · revert hX; decide
    · exact htj hX
  have h2 : '\n' ∉ ("created: ".data ++ m.createdAt) := by
    intro hmem
    rcases List.mem_append.mp hmem with hX | hX
    · revert hX; decide
    · exact hca hX
  have h3 : '\n' ∉ ("updated: ".data ++ m.updatedAt) := by
    intro hmem
    rcases List.mem_append.mp hmem with hX | hX
    · revert hX; decide
    · exact hua hX
  have h4 : '\n' ∉ ("deleted: ".data ++
      (if m.deleted then "true".data else "false".data)) := by
    intro hmem
    rcases List.mem_append.mp hmem with hX | hX
    · revert hX; decide
    · exact hds hX
  have e : fmtFooter m =
      ("tags: ".data ++ List.intercalate ", ".data m.tags) ++
        '\n' :: (("created: ".data ++ m.createdAt) ++
          '\n' :: (("updated: ".data ++ m.updatedAt) ++
            '\n' :: ("deleted: ".data ++
              (if m.deleted then "true".data else "false".data)))) := by
    simp [fmtFooter, List.append_assoc]
  unfold parseFrontmatter
  rw [e, splitChar_nl_append _ _ h1, splitChar_nl_append _ _ h2,
    splitChar_nl_append _ _ h3, splitChar_nl_single _ h4]
  simp only [List.filterMap_cons, List.cons_append, List.nil_append, lineKV_tags,
    lineKV_created, lineKV_updated, lineKV_deleted, List.filterMap_nil]

theorem metaLookup_fmtFooter (m : WrittenMemory)
    (htags : ∀ t ∈ m.tags, '\n' ∉ t)
    (hca : '\n' ∉ m.createdAt) (hua : '\n' ∉ m.updatedAt) :
    metaLookup (fmtFooter m) "tags".data
        = some (jsTrim (List.intercalate ", ".data m.tags)) ∧
    metaLookup (fmtFooter m) "created".data = some (jsTrim m.createdAt) ∧
    metaLookup (fmtFooter m) "updated".data = some (jsTrim m.updatedAt) ∧
    metaLookup (fmtFooter m) "deleted".data
        = some (jsTrim (if m.deleted then "true".data else "false".data)) := by
  have hpf := parseFrontmatter_fmtFooter m htags hca hua
  refine ⟨?_, ?_, ?_, ?_⟩ <;> simp [metaLookup, hpf, List.lookup]

theorem matchTitle_fmtBody (m : WrittenMemory) (hT1 : m.title ≠ [])
    (hT2 : '\n' ∉ m.title) :
    matchTitle (fmtBody m) = some m.title := by
  rw [fmtBody_cons]
  simp only [matchTitle]
  have htw : (m.title ++ '\n' :: '\n' :: (m.content ++ ['\n'])).takeWhile
      (fun c => decide (¬ c = '\n')) = m.title := by
    rw [takeWhile_append_all _ _ _ ?side]
    case side =>
      intro x hx
      simp only [decide_eq_true_eq]
      intro hh
      exact hT2 (hh ▸ hx)
    simp [List.takeWhile_cons]
  rw [htw]
  rw [if_pos ⟨hT1, by simp⟩]

theorem stripTitle_fmtBody (m : WrittenMemory) (hT1 : m.title ≠ [])
    (hT2 : '\n' ∉ m.title) :
    stripTitle (fmtBody m) = m.content ++ ['\n'] := by
  simp only [stripTitle, matchTitle_fmtBody m hT1 hT2]
  have hdrop : (fmtBody m).drop (2 + m.title.length + 1)
      = '\n' :: (m.content ++ ['\n']) := by
    rw [fmtBody_cons]
    rw [show 2 + m.title.length + 1 = (m.title.length + 1) + 1 + 1 by ring]
    rw [List.drop_succ_cons, List.drop_succ_cons]
    have h := @List.drop_append Char m.title
      ('\n' :: '\n' :: (m.content ++ ['\n'])) 1
    simp only [List.drop_succ_cons, List.drop_zero] at h
    exact h
  rw [hdrop]
  rfl

theorem splitFirstTwo_format (m : WrittenMemory)
    (hbody : containsSub "\n---".data (fmtBody m) = false)
    (hfooter : containsSub footerSep (fmtFooter m) = false) :
    splitFirstTwo footerSep (formatMemoryMarkdown m)
      = (fmtBody m, some (fmtFooter m)) := by
  have h1 : firstSplit footerSep (fmtBody m ++ footerSep ++ fmtFooter m)
      = some (fmtBody m, fmtFooter m) := firstSplit_footer_append _ _ hbody
  have h2 : firstSplit footerSep (fmtFooter m) = none :=
    firstSplit_eq_none _ _ hfooter
  rw [format_decompose]
  simp only [splitFirstTwo, h1, h2]

/-- C1 (amended): the markdown round-trip holds for notes whose title is a
nonempty single line, whose content is trim-stable with no line starting
with `---`, whose tags are nonempty, trim-stable, newline-free and free of
the `", "` separator, and whose timestamps are newline-free and
trim-stable. -/
theorem parse_format_roundtrip (m : WrittenMemory) (now : Str)
    (hT1 : m.title ≠ []) (hT2 : '\n' ∉ m.title)
    (hC1 : jsTrim m.content = m.content)
    (hC2 : ¬ ("---".data <+: m.content))
    (hC3 : containsSub "\n---".data m.content = false)
    (htags : ∀ t ∈ m.tags,
        t ≠ [] ∧ jsTrim t = t ∧ '\n' ∉ t ∧ containsSub (',' :: ' ' :: []) t = false)
    (hca1 : jsTrim m.createdAt = m.createdAt) (hca2 : '\n' ∉ m.createdAt)
    (hua1 : jsTrim m.updatedAt = m.updatedAt) (hua2 : '\n' ∉ m.updatedAt) :
    parseMemoryMarkdown (formatMemoryMarkdown m) m.id now = some m := by
  have hbody := fmtBody_no_nldash m hT2 hC2 hC3
  have hfooter := fmtFooter_no_sep m (fun t ht => (htags t ht).2.2.1) hca2 hua2
  have hsplit := splitFirstTwo_format m hbody hfooter
  obtain ⟨hlt, hlc, hlu, hld⟩ :=
    metaLookup_fmtFooter m (fun t ht => (htags t ht).2.2.1) hca2 hua2
  have htitle : (matchTitle (fmtBody m)).getD "Untitled".data = m.title := by
    rw [matchTitle_fmtBody m hT1 hT2]
    rfl
  have hcontent : jsTrim (stripTitle (fmtBody m)) = m.content := by
    rw [stripTitle_fmtBody m hT1 hT2, jsTrim_append_white '\n' _ (by decide), hC1]
  have htagsv : List.filter (fun t => t ≠ [])
      (splitCommaSpace (jsTrim (List.intercalate ", ".data m.tags))) = m.tags := by
    rw [jsTrim_intercalate_tags m.tags
      (fun t ht => ⟨(htags t ht).1, (htags t ht).2.1⟩)]
    cases htg : m.tags with
    | nil => decide
    | cons t L =>
      have hmem : ∀ u ∈ t :: L, u ∈ m.tags := fun u hu => htg ▸ hu
      rw [splitCommaSpace_intercalate (t :: L)
        (fun u hu => (htags u (hmem u hu)).2.2.2) (by simp)]
      rw [List.filter_eq_self.mpr]
      intro a ha
      simp only [ne_eq, decide_eq_true_eq]
      exact (htags a (hmem a ha)).1
  have hdel : (some (jsTrim (if m.deleted then "true".data else "false".data))
      == some "true".data) = m.deleted := by
    cases m.deleted <;> decide
  simp only [parseMemoryMarkdown, hsplit]
  rw [if_neg ?nonempty]
  case nonempty =>
    rintro (h | h)
    · rw [fmtBody_cons] at h
      simp at h
    · unfold fmtFooter at h
      simp at h
  rw [Option.some.injEq]
  simp only [hlt, hlc, hlu, hld, Option.getD_some]
  rw [htitle, hcontent, htagsv, hdel, hca1, hua1]

/-- Witness for C1 (amended) on `memRoundtrip`. -/
theorem parse_format_roundtrip_witness :
    parseMemoryMarkdown (formatMemoryMarkdown memRoundtrip) memRoundtrip.id
      "2099-01-01T00:00:00Z".data = some memRoundtrip :=
  parse_format_roundtrip memRoundtrip "2099-01-01T00:00:00Z".data
    (by decide) (by decide) (by decide) (by decide) (by decide) (by decide)
    (by decide) (by decide) (by decide) (by decide)
